import Mathlib

/-!
Verification of the `binary` / `reader` library from `src/binary_editor.hpp`.

The development shallowly embeds the C++ classes:

* `binary_chunk_memory`  →  `Chunk` (a backing blob, a view offset `m_offset`
  and a view length `m_size`; the blob is a `List Nat` of byte values);
* `binary_editor`        →  `Editor` (an ordered list of chunks);
* `binary_reader<T>`     →  `SReader` (a scalar reader with a literal or
  chained offset source);
* `binary_container_reader<T>` → `ContainerReader`.

`size_t` arithmetic is modelled over `Nat` with explicit wrapping:
`sadd`/`ssub`/`smul` reduce modulo `2 ^ 64` exactly where the C++ code adds,
subtracts or multiplies `size_t` values.  Fallible member functions (which
throw `binary_exception` / `reader_exception`) are modelled with
`Except String`.
-/

set_option autoImplicit false

/-- Word modulus of the `size_t` type on the reference platform. -/
def W : Nat := 2 ^ 64

/-- Wrapping `size_t` addition. -/
def sadd (a b : Nat) : Nat := (a + b) % W

/-- Wrapping `size_t` subtraction (arguments are reduced values `< W`). -/
def ssub (a b : Nat) : Nat := (W + a - b) % W

/-- Wrapping `size_t` multiplication. -/
def smul (a b : Nat) : Nat := (a * b) % W

/-- `binary_chunk_memory`: a shared backing blob (`m_ppBlob`), a view length
`m_size` and a view offset `m_offset` into the blob. -/
structure Chunk where
  blob : List Nat
  off : Nat
  sz : Nat
  deriving DecidableEq, Repr

/-- Bytes visible through the chunk: `get_data()` points at `blob + m_offset`
and `m_size` bytes are read from there. -/
def Chunk.data (c : Chunk) : List Nat := (c.blob.drop c.off).take c.sz

/-- `binary_chunk_memory::create_sub_chunk(offset, size)`: checks
`offset + size > m_size` (a wrapping `size_t` sum), then copies the chunk and
overwrites `m_offset := offset` and `m_size := size`.  Note that the new
offset is taken absolutely into the backing blob, not relative to the
parent's view. -/
def createSubChunk (c : Chunk) (offset size : Nat) : Except String Chunk :=
  if sadd offset size > c.sz then
    .error "chunk_range"
  else
    .ok { blob := c.blob, off := offset, sz := size }

/-- `binary_chunk_memory::binary_chunk_memory(pBlob, size, offset)`: rejects
`offset > size`; the null-blob check is not representable (blobs are lists). -/
def mkChunk (blob : List Nat) (size offset : Nat) : Except String Chunk :=
  if offset > size then
    .error "ctor_range"
  else
    .ok { blob := blob, off := offset, sz := size }

/-- `binary_editor`: the ordered chunk sequence `m_pChunks`. -/
structure Editor where
  chunks : List Chunk
  deriving DecidableEq, Repr

/-- `binary_editor(pBlob, size)` / the raw-pointer constructor: a single
memory chunk over the whole blob at offset `0`. -/
def fromBlob (b : List Nat) : Editor := ⟨[{ blob := b, off := 0, sz := b.length }]⟩

/-- `binary_editor::size()`: sums every chunk's `m_size` in a `size_t`
accumulator, hence modulo `2 ^ 64`. -/
def Editor.sizeE (e : Editor) : Nat := (e.chunks.map Chunk.sz).sum % W

/-- Unwrapped sum of the chunk view lengths (proof-side quantity). -/
def Editor.rawSize (e : Editor) : Nat := (e.chunks.map Chunk.sz).sum

/-- Logical byte content of the editor: the chunks' visible bytes in
sequence order. -/
def Editor.content (e : Editor) : List Nat := (e.chunks.map Chunk.data).flatten

/-- Editor state produced by `tidy_chunks`: one chunk over a fresh blob that
holds every chunk's bytes in order, with `m_size` the accumulated total. -/
def Editor.tidyE (e : Editor) : Editor :=
  ⟨[{ blob := e.content, off := 0, sz := e.sizeE }]⟩

/-- `binary_editor::tidy_chunks()`: copies all chunk bytes into one fresh
buffer of the current total size and rebuilds the editor from it via
`binary_editor(pBlob, totalSize)`, whose chunk constructor checks
`offset (= 0) > size`. -/
def Editor.tidy (e : Editor) : Except String Editor :=
  if 0 > e.sizeE then .error "ctor_range" else .ok e.tidyE

/-- Bytes reachable through the pointer returned by
`binary_editor::get_data()` (which first calls `tidy_chunks`). -/
def Editor.getBytes (e : Editor) : Except String (List Nat) :=
  e.tidy.map Editor.content

/-- Bytes at the coalesced base pointer, as the readers observe them. -/
def coalesced (e : Editor) : List Nat :=
  match e.tidy with
  | .ok t => t.content
  | .error _ => []

/-- Loop body of `binary_editor::create_sub_editor`: walks the chunk list
with the running offset `curOff` and the accumulated extracted size `curCh`,
pushing sub-chunks onto `acc`. -/
def subLoop (offset size : Nat) : List Chunk → Nat → Nat → List Chunk →
    Except String (List Chunk)
  | [], _, _, acc => .ok acc
  | c :: rest, curOff, curCh, acc =>
    if sadd curOff c.sz ≤ offset then
      subLoop offset size rest (sadd curOff c.sz) curCh acc
    else
      let need0 := ssub size curCh
      let need := if need0 > c.sz then c.sz else need0
      match createSubChunk c (ssub offset curOff) need with
      | .error m => .error m
      | .ok nc =>
        if sadd curCh need == size then
          .ok (acc ++ [nc])
        else
          subLoop offset size rest curOff (sadd curCh need) (acc ++ [nc])

/-- `binary_editor::create_sub_editor(offset, size)`: range-checks
`offset + size` against the total size, then runs the extraction loop. -/
def createSubEditor (e : Editor) (offset size : Nat) : Except String Editor :=
  if sadd offset size > e.sizeE then
    .error "editor_range"
  else
    (subLoop offset size e.chunks 0 0 []).map Editor.mk

/-- `binary_editor::push_back(backEditor)`: copies the other editor's chunks
to the back, preserving order. -/
def pushBackEd (e other : Editor) : Editor := ⟨e.chunks ++ other.chunks⟩

/-- `binary_editor::push_front(frontEditor)`: copies the other editor's
chunks to the front (reverse iteration into a front inserter keeps their
relative order). -/
def pushFrontEd (e other : Editor) : Editor := ⟨other.chunks ++ e.chunks⟩

/-- Loop body of `binary_editor::insert`: passes over chunks that end at or
before `offset`; at the first chunk that reaches past it, either splices the
other editor's chunks before it (boundary hit) or splits it via
`create_sub_chunk`; if the loop runs out, appends the other chunks. -/
def insLoop (oth : List Chunk) (offset : Nat) : List Chunk → Nat →
    Except String (List Chunk)
  | [], _ => .ok oth
  | c :: rest, curOff =>
    if sadd curOff c.sz ≤ offset then
      (insLoop oth offset rest (sadd curOff c.sz)).map (fun l => c :: l)
    else if curOff == offset then
      .ok (oth ++ c :: rest)
    else
      match createSubChunk c 0 (ssub offset curOff) with
      | .error m => .error m
      | .ok hd =>
        match createSubChunk c (ssub offset curOff) (ssub c.sz (ssub offset curOff)) with
        | .error m => .error m
        | .ok tl => .ok (hd :: (oth ++ tl :: rest))

/-- `binary_editor::insert(offset, editor)`: rejects `offset > size()`, then
runs the insertion loop. -/
def insertEd (e : Editor) (offset : Nat) (other : Editor) : Except String Editor :=
  if offset > e.sizeE then
    .error "insert_range"
  else
    (insLoop other.chunks offset e.chunks 0).map Editor.mk

/-- Little-endian value of a byte list, as obtained by reinterpreting the
bytes as an unsigned integer on the reference (little-endian) platform. -/
def leVal : List Nat → Nat
  | [] => 0
  | b :: rest => b + 256 * leVal rest

/-- Reinterpretation of the `width`-byte window at `base + offset` as an
unsigned integral value (`*(T*)((const char*)data + offset)`). -/
def readT (bytes : List Nat) (offset width : Nat) : Nat :=
  leVal ((bytes.drop offset).take width)

/-- `reader::binary_reader<T>`: the `offset_impl` variant holds either a
literal `size_t` offset or a reference to another reader whose own value
supplies the offset.  The first component is the byte width of `T`. -/
inductive SReader where
  | lit : Nat → Nat → SReader
  | chained : Nat → SReader → SReader
  deriving DecidableEq, Repr

/-- `binary_reader::get()`: resolves the offset via `GetOffset` (a literal is
used directly, a chained source is recursively read), forces coalescing of
the bound editor through `get_data`, and reinterprets the window at
`base + offset` as the target type. -/
def readerGet (e : Editor) : SReader → Nat
  | .lit w off => readT (coalesced e) off w
  | .chained w r => readT (coalesced e) (readerGet e r) w

/-- `reader::binary_container_reader<T>`: the private sub-editor, the element
count (`element_size` in the source) and the byte width of `T`. -/
structure ContainerReader where
  editor : Editor
  element_size : Nat
  width : Nat
  deriving DecidableEq, Repr

/-- `binary_container_reader`'s constructor:
`editor_.create_sub_editor(offset, sizeof(T) * element_size_)`. -/
def mkContainer (e : Editor) (offset count width : Nat) :
    Except String ContainerReader :=
  (createSubEditor e offset (smul width count)).map
    (fun se => { editor := se, element_size := count, width := width })

/-- Unchecked element access `*(((T*)editor.get_data()) + index)`, shared by
`operator[]`, `at` and the iterator's dereference. -/
def ContainerReader.deref (c : ContainerReader) (i : Nat) : Nat :=
  readT (coalesced c.editor) (c.width * i) c.width

/-- `binary_container_reader::operator[]`: bounds check, then unchecked
element read. -/
def ContainerReader.idx (c : ContainerReader) (i : Nat) : Except String Nat :=
  if i ≥ c.element_size then .error "index_range" else .ok (c.deref i)

/-- `binary_container_reader::at`: bounds check, then unchecked element
read. -/
def ContainerReader.atIdx (c : ContainerReader) (i : Nat) : Except String Nat :=
  if i ≥ c.element_size then .error "index_range" else .ok (c.deref i)

/-- Front-to-back iteration from `begin()` (index `0`) to `end()`
(index `element_size`), dereferencing at each index. -/
def ContainerReader.iterSeq (c : ContainerReader) : List Nat :=
  (List.range c.element_size).map c.deref

/-- Well-formed editor: every chunk's view lies inside its backing blob and
the total view length fits in `size_t` (always true of states the C++ code
can actually hold in memory). -/
def WFE (e : Editor) : Prop :=
  (∀ c ∈ e.chunks, c.off + c.sz ≤ c.blob.length) ∧ e.rawSize < W

/-- Editor with no zero-length chunk in its sequence. -/
def noZero (e : Editor) : Prop := ∀ c ∈ e.chunks, c.sz ≠ 0

/-- C1: refuted on the code.  Build `e` as the sub-editor covering bytes
`[1,2]` of a 3-byte buffer (its single chunk then views the backing blob at
offset 1), and insert the 1-byte editor `[9]` at offset 1.  The claim demands
content `[1,9,2]`, but `create_sub_chunk` installs the split parts' offsets
absolutely into the backing blob, so the code yields `[0,9,1]`: byte `1` is
duplicated and bytes `1`/`2` of the logical buffer are replaced.  (The
claim's own 10-byte/5-byte scenario does hold, last conjunct.) -/
theorem c1_insert_midchunk_wrong_bytes :
    ((createSubEditor (fromBlob [0, 1, 2]) 1 2).bind
      (fun e => (insertEd e 1 (fromBlob [9])).map Editor.content)) = .ok [0, 9, 1]
    ∧ (createSubEditor (fromBlob [0, 1, 2]) 1 2).map Editor.content = .ok [1, 2]
    ∧ (List.take 1 [1, 2] ++ [9] ++ List.drop 1 [1, 2]) = [1, 9, 2]
    ∧ ([0, 9, 1] : List Nat) ≠ [1, 9, 2]
    ∧ (insertEd (fromBlob [0, 1, 2, 3, 4, 5, 6, 7, 8, 9]) 5
        (fromBlob [100, 101, 102, 103, 104])).map Editor.content
      = .ok [0, 1, 2, 3, 4, 100, 101, 102, 103, 104, 5, 6, 7, 8, 9] :=
  ⟨rfl, rfl, rfl, by decide, rfl⟩

/-- C2: refuted on the code.  On the two-chunk editor `[0,1,2,3] ++
[4,5,6,7]`, the request `create_sub_editor(2, 4)` is in range
(`2 + 4 ≤ 8`), and the claim demands content `[2,3,4,5]`; but the loop caps
`needSize` at the whole chunk size rather than the chunk's remaining bytes,
so it calls `create_sub_chunk(2, 4)` on a 4-byte chunk, which throws a
buffer-range error. -/
theorem c2_sub_editor_throws_on_valid_range :
    (pushBackEd (fromBlob [0, 1, 2, 3]) (fromBlob [4, 5, 6, 7])).sizeE = 8
    ∧ 2 + 4 ≤ 8
    ∧ (createSubEditor (pushBackEd (fromBlob [0, 1, 2, 3]) (fromBlob [4, 5, 6, 7]))
        2 4).toOption = none :=
  ⟨rfl, by decide, rfl⟩

/-- C4: refuted on the code.  With `e` the 3-byte editor `[0,1,2]`,
`e.create_sub_editor(1, 2)` has content `[1,2]`; extracting `(1, 1)` from it
should give byte `a + b = 2` of `e`, namely `[2]`, but because
`create_sub_chunk` replaces the chunk's offset absolutely, the nested
extraction yields `[1]` while the direct extraction `e.create_sub_editor(2, 1)`
yields `[2]`. -/
theorem c4_sub_sub_differs_from_direct_sub :
    ((createSubEditor (fromBlob [0, 1, 2]) 1 2).bind
      (fun e1 => createSubEditor e1 1 1)).map Editor.content = .ok [1]
    ∧ (createSubEditor (fromBlob [0, 1, 2]) 2 1).map Editor.content = .ok [2]
    ∧ ([1] : List Nat) ≠ [2] :=
  ⟨rfl, rfl, by decide⟩

/-- C5: a chained reader resolves its offset by recursively reading the
referenced reader over the coalesced editor bytes (first conjunct), and over
the bytes `[2,99,255]` a byte reader at literal offset 0 reads `2` while a
byte reader whose offset source is that reader reads `255`. -/
theorem c5_reader_offset_chaining :
    (∀ (e : Editor) (w : Nat) (r : SReader),
      readerGet e (.chained w r) = readT (coalesced e) (readerGet e r) w)
    ∧ readerGet (fromBlob [2, 99, 255]) (.lit 1 0) = 2
    ∧ readerGet (fromBlob [2, 99, 255]) (.chained 1 (.lit 1 0)) = 255 :=
  ⟨fun _ _ _ => rfl, rfl, rfl⟩

/-- C9: on a default-constructed (chunkless) editor, `get_data` raises no
error: `tidy_chunks` rebuilds the editor as a single chunk of size 0 over a
fresh empty allocation, the visible bytes are empty, and `size()` is still
0 afterwards. -/
theorem c9_get_data_on_empty_editor :
    Editor.tidy ⟨[]⟩ = .ok ⟨[{ blob := [], off := 0, sz := 0 }]⟩
    ∧ Editor.getBytes ⟨[]⟩ = .ok []
    ∧ Editor.sizeE ⟨[{ blob := [], off := 0, sz := 0 }]⟩ = 0 :=
  ⟨rfl, rfl, rfl⟩

/-- C10: the range check of `binary_chunk_memory::create_sub_chunk` computes
`offset + size` in `size_t`, i.e. modulo `2 ^ 64`; on a 10-byte chunk the
arguments `offset = 5`, `size = 2 ^ 64 - 1` have exact sum exceeding the
view size, yet the wrapped sum is `4`, so no out-of-range error is raised. -/
theorem c10_sub_chunk_range_check_wraps :
    ∃ (c : Chunk) (offset size : Nat),
      offset ≤ c.sz ∧ c.sz < offset + size
      ∧ (createSubChunk c offset size).toOption.isSome = true :=
  ⟨{ blob := List.replicate 10 0, off := 0, sz := 10 }, 5, W - 1,
    by decide, by decide, rfl⟩

/-- Helper: the total size reported by `size()` is always below `2 ^ 64`. -/
theorem sizeE_lt_W (e : Editor) : e.sizeE < W :=
  Nat.mod_lt _ (by unfold W; positivity)

/-- Helper: for in-memory states (total below `2 ^ 64`) the wrapped size
equals the exact chunk-length sum. -/
theorem sizeE_eq_rawSize {e : Editor} (h : e.rawSize < W) : e.sizeE = e.rawSize :=
  Nat.mod_eq_of_lt h

/-- Helper: a chunk whose view lies inside its blob shows exactly `m_size`
bytes. -/
theorem data_length_of_wf {c : Chunk} (h : c.off + c.sz ≤ c.blob.length) :
    c.data.length = c.sz := by
  simp only [Chunk.data, List.length_take, List.length_drop]
  omega

/-- Helper: a well-formed editor's content has exactly `rawSize` bytes. -/
theorem content_length_of_wf {e : Editor} (h : WFE e) :
    e.content.length = e.rawSize := by
  unfold Editor.content Editor.rawSize
  rw [List.length_flatten, List.map_map]
  refine congrArg List.sum (List.map_congr_left ?_)
  intro c hc
  exact data_length_of_wf (h.1 c hc)

/-- Helper: coalescing a well-formed editor preserves the byte content. -/
theorem tidyE_content_of_wf {e : Editor} (h : WFE e) :
    e.tidyE.content = e.content := by
  show ((e.content.drop 0).take e.sizeE) ++ [] = e.content
  rw [List.append_nil, List.drop_zero, sizeE_eq_rawSize h.2,
    ← content_length_of_wf h, List.take_length]

/-- C6 (general part and concrete scenario): `operator[]` and `at` agree
everywhere, succeed exactly below `element_count`, return the shared
dereference value there, and iterating `begin()`..`end()` dereferences the
indices `0..element_count` in order; over `[10,20,30,40,50,60,70,80]` the
4-element byte container at offset 2 reads `[30,40,50,60]` and index 4 is a
container-range error on both accessors. -/
theorem c6_container_bounds_and_iteration :
    (∀ (c : ContainerReader) (i : Nat),
      c.idx i = c.atIdx i
      ∧ ((c.idx i).toOption.isSome ↔ i < c.element_size)
      ∧ (i < c.element_size → c.idx i = .ok (c.deref i))
      ∧ c.iterSeq = (List.range c.element_size).map c.deref)
    ∧ (mkContainer (fromBlob [10, 20, 30, 40, 50, 60, 70, 80]) 2 4 1).map
        (fun c => ((List.range 4).map c.deref, c.idx 4, c.atIdx 4))
      = .ok ([30, 40, 50, 60], .error "index_range", .error "index_range") := by
  refine ⟨fun c i => ⟨rfl, ?_, ?_, rfl⟩, rfl⟩
  · by_cases h : i ≥ c.element_size
    · rw [ContainerReader.idx, if_pos h]
      exact iff_of_false (by simp [Except.toOption]) (by omega)
    · rw [ContainerReader.idx, if_neg h]
      exact iff_of_true (by simp [Except.toOption]) (by omega)
  · intro h
    rw [ContainerReader.idx, if_neg (by omega)]

/-- C6 witness: the bounds dichotomy and the accessor agreement instantiated
on the concrete 4-element container over `[10,20,30,40,50,60,70,80]`. -/
theorem c6_container_witness :
    ContainerReader.idx ⟨⟨[⟨[10, 20, 30, 40, 50, 60, 70, 80], 2, 4⟩]⟩, 4, 1⟩ 2
      = ContainerReader.atIdx ⟨⟨[⟨[10, 20, 30, 40, 50, 60, 70, 80], 2, 4⟩]⟩, 4, 1⟩ 2
    ∧ ContainerReader.idx ⟨⟨[⟨[10, 20, 30, 40, 50, 60, 70, 80], 2, 4⟩]⟩, 4, 1⟩ 2
      = .ok (ContainerReader.deref ⟨⟨[⟨[10, 20, 30, 40, 50, 60, 70, 80], 2, 4⟩]⟩, 4, 1⟩ 2) :=
  ⟨(c6_container_bounds_and_iteration.1 _ 2).1,
   (c6_container_bounds_and_iteration.1 _ 2).2.2.1 (by decide)⟩

/-- C7: for any well-formed editor, requesting the coalesced data pointer is
idempotent on content: `get_data` exposes exactly the logical content,
coalescing (which rebuilds the editor as a single chunk over a fresh copy)
keeps `size()` unchanged, a second `get_data` on the coalesced editor shows
byte-identical content, and re-coalescing is a fixed point. -/
theorem c7_coalescing_idempotent (e : Editor) (h : WFE e) :
    e.getBytes = .ok e.content
    ∧ e.tidyE.sizeE = e.sizeE
    ∧ e.tidyE.getBytes = .ok e.content
    ∧ e.tidyE.tidyE = e.tidyE := by
  have hsz : e.tidyE.sizeE = e.sizeE := by
    show (e.sizeE + 0) % W = e.sizeE
    rw [Nat.add_zero]
    exact Nat.mod_eq_of_lt (sizeE_lt_W e)
  have hct : e.tidyE.content = e.content := tidyE_content_of_wf h
  have hfix : e.tidyE.tidyE = e.tidyE := by
    show (⟨[{ blob := e.tidyE.content, off := 0, sz := e.tidyE.sizeE }]⟩ : Editor)
      = ⟨[{ blob := e.content, off := 0, sz := e.sizeE }]⟩
    rw [hct, hsz]
  refine ⟨?_, hsz, ?_, hfix⟩
  · show Except.map Editor.content (if 0 > e.sizeE then .error "ctor_range" else .ok e.tidyE)
      = .ok e.content
    rw [if_neg (by omega), Except.map, hct]
  · show Except.map Editor.content
      (if 0 > e.tidyE.sizeE then .error "ctor_range" else .ok e.tidyE.tidyE) = .ok e.content
    rw [if_neg (by omega), Except.map, hfix, hct]

/-- C7 witness: the coalescing facts instantiated on the three-byte editor
`[1,2,3]`. -/
theorem c7_coalescing_witness :
    (fromBlob [1, 2, 3]).getBytes = .ok (fromBlob [1, 2, 3]).content
    ∧ (fromBlob [1, 2, 3]).tidyE.sizeE = (fromBlob [1, 2, 3]).sizeE
    ∧ (fromBlob [1, 2, 3]).tidyE.getBytes = .ok (fromBlob [1, 2, 3]).content
    ∧ (fromBlob [1, 2, 3]).tidyE.tidyE = (fromBlob [1, 2, 3]).tidyE :=
  c7_coalescing_idempotent (fromBlob [1, 2, 3]) (by constructor <;> decide)

/-- Helper: wrapping addition below the modulus is exact. -/
theorem sadd_eq_of_lt {a b : Nat} (h : a + b < W) : sadd a b = a + b :=
  Nat.mod_eq_of_lt h

/-- Helper: wrapping subtraction of a smaller reduced value is exact. -/
theorem ssub_eq_of_le {a b : Nat} (hba : b ≤ a) (ha : a < W) : ssub a b = a - b := by
  unfold ssub W at *
  omega

/-- Helper: a wrapped chunk-end offset that lands past `c` within `size_t`
bounds did not actually wrap. -/
theorem sadd_gt_no_wrap {a b c : Nat} (h1 : a ≤ c) (h2 : c < W) (h3 : b < W)
    (hg : sadd a b > c) : c < a + b ∧ a + b < W := by
  unfold sadd W at *
  omega

/-- Helper: a successful `create_sub_chunk` returns the same blob with the
requested view offset and view size installed. -/
theorem createSubChunk_ok {c : Chunk} {o s : Nat} {nc : Chunk}
    (h : createSubChunk c o s = .ok nc) : nc = ⟨c.blob, o, s⟩ := by
  unfold createSubChunk at h
  split at h
  · cases h
  · cases h
    rfl

/-- Helper: the extraction loop of `create_sub_editor` with a positive
requested size only ever pushes sub-chunks of positive view size. -/
theorem subLoop_noZero (offset size : Nat) (hsW : size < W)
    (hoW : offset < W) :
    ∀ (cs : List Chunk), ∀ (curOff curCh : Nat) (acc : List Chunk),
      curOff ≤ offset → curCh < size → (∀ c ∈ acc, c.sz ≠ 0) →
      ∀ l, subLoop offset size cs curOff curCh acc = .ok l →
      ∀ c ∈ l, c.sz ≠ 0 := by
  intro cs
  induction cs with
  | nil =>
    intro curOff curCh acc _ _ hacc l hok
    simp only [subLoop] at hok
    cases hok
    exact hacc
  | cons c rest ih =>
    intro curOff curCh acc hco hcc hacc l hok
    simp only [subLoop] at hok
    by_cases hskip : sadd curOff c.sz ≤ offset
    · rw [if_pos hskip] at hok
      exact ih (sadd curOff c.sz) curCh acc hskip hcc hacc l hok
    · rw [if_neg hskip] at hok
      have hcz : 0 < c.sz := by
        rcases Nat.eq_zero_or_pos c.sz with h0 | h
        · exfalso
          apply hskip
          rw [h0, sadd_eq_of_lt (by omega)]
          omega
        · exact h
      have hneed0 : ssub size curCh = size - curCh := ssub_eq_of_le (le_of_lt hcc) hsW
      set need := if ssub size curCh > c.sz then c.sz else ssub size curCh with hneed
      have hneedpos : 0 < need := by
        rw [hneed]
        split
        · exact hcz
        · rw [hneed0]
          omega
      have hneedle : need ≤ size - curCh := by
        rw [hneed]
        split
        · omega
        · rw [hneed0]
      split at hok
      · cases hok
      · rename_i nc hsub
        have hncsz : nc.sz = need := by rw [createSubChunk_ok hsub]
        have haccn : ∀ x ∈ acc ++ [nc], x.sz ≠ 0 := by
          intro x hx
          rcases List.mem_append.mp hx with hxa | hxn
          · exact hacc x hxa
          · rw [List.mem_singleton.mp hxn, hncsz]
            omega
        by_cases hdone : (sadd curCh need == size) = true
        · rw [if_pos hdone] at hok
          cases hok
          exact haccn
        · rw [if_neg hdone] at hok
          have hne : sadd curCh need ≠ size := fun h => hdone (by simp [h])
          have hlt : sadd curCh need < size := by
            rw [sadd_eq_of_lt (by omega)] at hne ⊢
            omega
          exact ih curOff (sadd curCh need) (acc ++ [nc]) hco hlt haccn l hok

/-- Helper: the insertion loop of `insert` preserves freedom from zero-size
chunks when both the receiving sequence and the inserted sequence are free
of them: passed-over chunks are kept intact, a boundary hit splices intact
chunks, and a split produces a head of size `offset - curOff ≥ 1` and a tail
of size `chunk - (offset - curOff) ≥ 1`. -/
theorem insLoop_noZero (oth : List Chunk) (offset : Nat) (hoW : offset < W)
    (hoth : ∀ c ∈ oth, c.sz ≠ 0) :
    ∀ (cs : List Chunk), (∀ c ∈ cs, c.sz ≠ 0) → (∀ c ∈ cs, c.sz < W) →
      ∀ (curOff : Nat), curOff ≤ offset →
      ∀ l, insLoop oth offset cs curOff = .ok l → ∀ c ∈ l, c.sz ≠ 0 := by
  intro cs
  induction cs with
  | nil =>
    intro _ _ curOff _ l hok
    simp only [insLoop] at hok
    cases hok
    exact hoth
  | cons c rest ih =>
    intro hcs hcsW curOff hco l hok
    simp only [insLoop] at hok
    by_cases hskip : sadd curOff c.sz ≤ offset
    · rw [if_pos hskip] at hok
      cases hrec : insLoop oth offset rest (sadd curOff c.sz) with
      | error m =>
        rw [hrec] at hok
        cases hok
      | ok l' =>
        rw [hrec] at hok
        simp only [Except.map] at hok
        cases hok
        intro x hx
        rcases List.mem_cons.mp hx with rfl | hxl
        · exact hcs x (by simp)
        · exact ih (fun d hd => hcs d (by simp [hd])) (fun d hd => hcsW d (by simp [hd]))
            (sadd curOff c.sz) hskip l' hrec x hxl
    · rw [if_neg hskip] at hok
      by_cases hbd : (curOff == offset) = true
      · rw [if_pos hbd] at hok
        cases hok
        intro x hx
        rcases List.mem_append.mp hx with hxo | hxc
        · exact hoth x hxo
        · exact hcs x hxc
      · rw [if_neg hbd] at hok
        split at hok
        · cases hok
        · rename_i hd hsub1
          split at hok
          · cases hok
          · rename_i tl hsub2
            cases hok
            have hcoff : curOff < offset :=
              lt_of_le_of_ne hco (fun h => hbd (by simp [h]))
            have hl0 : ssub offset curOff = offset - curOff := ssub_eq_of_le hco hoW
            have hszW : c.sz < W := hcsW c (by simp)
            have hnw : offset < curOff + c.sz ∧ curOff + c.sz < W :=
              sadd_gt_no_wrap hco hoW hszW (by omega)
            have hdsz : hd.sz = ssub offset curOff := by rw [createSubChunk_ok hsub1]
            have htlsz : tl.sz = ssub c.sz (ssub offset curOff) := by
              rw [createSubChunk_ok hsub2]
            intro x hx
            rcases List.mem_cons.mp hx with rfl | hxl
            · rw [hdsz, hl0]
              omega
            · rcases List.mem_append.mp hxl with hxo | hxc
              · exact hoth x hxo
              · rcases List.mem_cons.mp hxc with rfl | hxr
                · rw [htlsz, hl0, ssub_eq_of_le (by omega) hszW]
                  omega
                · exact hcs x (by simp [hxr])

/-- C3 counterexample: `create_sub_editor` called with requested size 0 on a
non-empty editor completes normally but leaves one chunk of size 0 in the
result, violating the claimed invariant. -/
theorem c3_zero_size_chunk_counterexample :
    createSubEditor (fromBlob [7]) 0 0 = .ok ⟨[{ blob := [7], off := 0, sz := 0 }]⟩
    ∧ ¬ noZero ⟨[{ blob := [7], off := 0, sz := 0 }]⟩ :=
  ⟨rfl, by unfold noZero; decide⟩

/-- C3 amended: after `push_back`, `push_front`, and a normally completing
`insert`, no chunk has size 0 provided the two operand editors are free of
zero-size chunks; and a normally completing `create_sub_editor` with
requested size strictly greater than 0 yields no zero-size chunk.  (The
original claim fails only for `create_sub_editor` with requested size 0,
which pushes one zero-size sub-chunk whenever the offset lies strictly
before the total size.) -/
theorem c3_no_zero_chunks_after_splice (e o : Editor) (k s off : Nat)
    (he : noZero e) (ho : noZero o) :
    noZero (pushBackEd e o)
    ∧ noZero (pushFrontEd e o)
    ∧ ((∀ c ∈ e.chunks, c.sz < W) → ∀ e', insertEd e k o = .ok e' → noZero e')
    ∧ (0 < s → s < W → off < W → ∀ e', createSubEditor e off s = .ok e' → noZero e') := by
  refine ⟨?_, ?_, ?_, ?_⟩
  · intro x hx
    rcases List.mem_append.mp hx with hxe | hxo
    · exact he x hxe
    · exact ho x hxo
  · intro x hx
    rcases List.mem_append.mp hx with hxo | hxe
    · exact ho x hxo
    · exact he x hxe
  · intro hW e' hok
    unfold insertEd at hok
    split at hok
    · cases hok
    · rename_i hkle
      cases hrec : insLoop o.chunks k e.chunks 0 with
      | error m =>
        rw [hrec] at hok
        cases hok
      | ok l =>
        rw [hrec] at hok
        simp only [Except.map] at hok
        cases hok
        have hkW : k < W := lt_of_le_of_lt (Nat.not_lt.mp hkle) (sizeE_lt_W e)
        exact insLoop_noZero o.chunks k hkW ho e.chunks he hW 0 (Nat.zero_le _) l hrec
  · intro hs hsW hoffW e' hok
    unfold createSubEditor at hok
    split at hok
    · cases hok
    · cases hrec : subLoop off s e.chunks 0 0 [] with
      | error m =>
        rw [hrec] at hok
        cases hok
      | ok l =>
        rw [hrec] at hok
        simp only [Except.map] at hok
        cases hok
        exact subLoop_noZero off s hsW hoffW e.chunks 0 0 [] (Nat.zero_le _) hs
          (by intro x hx; cases hx) l hrec

/-- C3 witness: the amended invariant instantiated on concrete splices of
the editors `[1,2]` and `[9]`. -/
theorem c3_no_zero_chunks_witness :
    noZero (pushBackEd (fromBlob [1, 2]) (fromBlob [9]))
    ∧ noZero ⟨[⟨[1, 2], 0, 1⟩, ⟨[9], 0, 1⟩, ⟨[1, 2], 1, 1⟩]⟩
    ∧ noZero ⟨[⟨[1, 2], 0, 1⟩]⟩ :=
  ⟨(c3_no_zero_chunks_after_splice (fromBlob [1, 2]) (fromBlob [9]) 1 1 0
      (by unfold noZero; decide) (by unfold noZero; decide)).1,
   (c3_no_zero_chunks_after_splice (fromBlob [1, 2]) (fromBlob [9]) 1 1 0
      (by unfold noZero; decide) (by unfold noZero; decide)).2.2.1 (by decide) _ rfl,
   (c3_no_zero_chunks_after_splice (fromBlob [1, 2]) (fromBlob [9]) 1 1 0
      (by unfold noZero; decide) (by unfold noZero; decide)).2.2.2
     (by decide) (by decide) (by decide) _ rfl⟩

/-- One building operation applied to an editor: an append of a byte range
(`push_back` of a one-chunk editor, as `emplace_back` also produces), a
prepend, or an insertion of a byte range at an offset. -/
inductive BuildOp where
  | pushB : List Nat → BuildOp
  | pushF : List Nat → BuildOp
  | ins : Nat → List Nat → BuildOp
  deriving Repr

/-- Length of the byte range passed to a building operation. -/
def opLen : BuildOp → Nat
  | .pushB b => b.length
  | .pushF b => b.length
  | .ins _ b => b.length

/-- Application of one building operation. -/
def applyOp (e : Editor) : BuildOp → Except String Editor
  | .pushB b => .ok (pushBackEd e (fromBlob b))
  | .pushF b => .ok (pushFrontEd e (fromBlob b))
  | .ins k b => insertEd e k (fromBlob b)

/-- Application of a sequence of building operations. -/
def buildFrom (e : Editor) : List BuildOp → Except String Editor
  | [] => .ok e
  | op :: ops => (applyOp e op).bind (fun e1 => buildFrom e1 ops)

/-- An editor built from an initial blob by a sequence of appends, prepends
and insertions. -/
def buildEditor (b0 : List Nat) (ops : List BuildOp) : Except String Editor :=
  buildFrom (fromBlob b0) ops

/-- Helper: every chunk's view length is bounded by the editor's raw total. -/
theorem sz_le_rawSize {e : Editor} {c : Chunk} (hc : c ∈ e.chunks) :
    c.sz ≤ e.rawSize :=
  List.single_le_sum (fun x _ => Nat.zero_le x) _ (List.mem_map_of_mem Chunk.sz hc)

/-- Helper: the insertion loop preserves the total view length, adding
exactly the spliced sequence's total: a split replaces a chunk of size `n`
by a head of size `d` and a tail of size `n - d`. -/
theorem insLoop_rawSize (oth : List Chunk) (offset : Nat) (hoW : offset < W) :
    ∀ (cs : List Chunk), (∀ c ∈ cs, c.sz < W) →
      ∀ (curOff : Nat), curOff ≤ offset →
      ∀ l, insLoop oth offset cs curOff = .ok l →
      (l.map Chunk.sz).sum = (cs.map Chunk.sz).sum + (oth.map Chunk.sz).sum := by
  intro cs
  induction cs with
  | nil =>
    intro _ curOff _ l hok
    simp only [insLoop] at hok
    cases hok
    simp
  | cons c rest ih =>
    intro hcsW curOff hco l hok
    simp only [insLoop] at hok
    by_cases hskip : sadd curOff c.sz ≤ offset
    · rw [if_pos hskip] at hok
      cases hrec : insLoop oth offset rest (sadd curOff c.sz) with
      | error m =>
        rw [hrec] at hok
        cases hok
      | ok l' =>
        rw [hrec] at hok
        simp only [Except.map] at hok
        cases hok
        have hrest := ih (fun d hd => hcsW d (by simp [hd])) (sadd curOff c.sz) hskip l' hrec
        simp only [List.map_cons, List.sum_cons]
        omega
    · rw [if_neg hskip] at hok
      by_cases hbd : (curOff == offset) = true
      · rw [if_pos hbd] at hok
        cases hok
        simp only [List.map_append, List.sum_append, List.map_cons, List.sum_cons]
        omega
      · rw [if_neg hbd] at hok
        split at hok
        · cases hok
        · rename_i hd hsub1
          split at hok
          · cases hok
          · rename_i tl hsub2
            cases hok
            have hcoff : curOff < offset :=
              lt_of_le_of_ne hco (fun h => hbd (by simp [h]))
            have hl0 : ssub offset curOff = offset - curOff := ssub_eq_of_le hco hoW
            have hszW : c.sz < W := hcsW c (by simp)
            have hnw : offset < curOff + c.sz ∧ curOff + c.sz < W :=
              sadd_gt_no_wrap hco hoW hszW (by omega)
            have hdsz : hd.sz = ssub offset curOff := by rw [createSubChunk_ok hsub1]
            have htlsz : tl.sz = ssub c.sz (ssub offset curOff) := by
              rw [createSubChunk_ok hsub2]
            have htl : tl.sz = c.sz - (offset - curOff) := by
              rw [htlsz, hl0, ssub_eq_of_le (by omega) hszW]
            simp only [List.map_cons, List.sum_cons, List.map_append, List.sum_append]
            rw [hdsz, hl0, htl]
            omega

/-- Helper: a normally completing `insert` adds exactly the other editor's
total view length to the receiver's. -/
theorem insertEd_rawSize {e o e' : Editor} {k : Nat}
    (hW : ∀ c ∈ e.chunks, c.sz < W)
    (hok : insertEd e k o = .ok e') :
    e'.rawSize = e.rawSize + o.rawSize := by
  unfold insertEd at hok
  split at hok
  · cases hok
  · rename_i hkle
    cases hrec : insLoop o.chunks k e.chunks 0 with
    | error m =>
      rw [hrec] at hok
      cases hok
    | ok l =>
      rw [hrec] at hok
      simp only [Except.map] at hok
      cases hok
      have hkW : k < W := lt_of_le_of_lt (Nat.not_lt.mp hkle) (sizeE_lt_W e)
      exact insLoop_rawSize o.chunks k hkW e.chunks hW 0 (Nat.zero_le _) l hrec

/-- Helper: under the in-memory bound, a build-operation sequence that
completes normally grows the raw total by exactly the sum of the passed
byte-range lengths. -/
theorem buildFrom_rawSize :
    ∀ (ops : List BuildOp) (e e' : Editor),
      buildFrom e ops = .ok e' →
      e.rawSize + (ops.map opLen).sum < W →
      e'.rawSize = e.rawSize + (ops.map opLen).sum := by
  intro ops
  induction ops with
  | nil =>
    intro e e' hok _
    simp only [buildFrom] at hok
    cases hok
    simp
  | cons op ops ih =>
    intro e e' hok hbound
    simp only [buildFrom] at hok
    cases happ : applyOp e op with
    | error m =>
      rw [happ] at hok
      cases hok
    | ok e1 =>
      rw [happ] at hok
      simp only [Except.bind] at hok
      have h1 : e1.rawSize = e.rawSize + opLen op := by
        cases op with
        | pushB b =>
          simp only [applyOp] at happ
          cases happ
          simp [pushBackEd, Editor.rawSize, fromBlob, opLen]
        | pushF b =>
          simp only [applyOp] at happ
          cases happ
          simp [pushFrontEd, Editor.rawSize, fromBlob, opLen]
          omega
        | ins k b =>
          simp only [applyOp] at happ
          have hW : ∀ c ∈ e.chunks, c.sz < W := by
            intro c hc
            have h1 := sz_le_rawSize hc
            simp only [List.map_cons, List.sum_cons] at hbound
            omega
          have := insertEd_rawSize hW happ
          rw [this]
          simp [Editor.rawSize, fromBlob, opLen]
      have hbound1 : e1.rawSize + (ops.map opLen).sum < W := by
        rw [h1]
        simp only [List.map_cons, List.sum_cons] at hbound
        omega
      rw [ih e1 e' hok hbound1, h1]
      simp only [List.map_cons, List.sum_cons]
      omega

/-- C8: for every editor built from a blob by any normally completing
sequence of appends, prepends and insertions of byte ranges whose total
length is an in-memory quantity (below `2 ^ 64`), `size()` equals the sum of
the lengths of the byte ranges passed, regardless of the chunk structure
that resulted. -/
theorem c8_size_is_sum_of_built_ranges (b0 : List Nat) (ops : List BuildOp)
    (e : Editor) (hok : buildEditor b0 ops = .ok e)
    (hbound : b0.length + (ops.map opLen).sum < W) :
    e.sizeE = b0.length + (ops.map opLen).sum := by
  have h0 : (fromBlob b0).rawSize = b0.length := by
    simp [Editor.rawSize, fromBlob]
  have hr := buildFrom_rawSize ops (fromBlob b0) e hok (by rw [h0]; exact hbound)
  rw [h0] at hr
  calc e.sizeE = e.rawSize := sizeE_eq_rawSize (by rw [hr]; exact hbound)
    _ = b0.length + (ops.map opLen).sum := hr

/-- C8 witness: building from `[1,2]` by appending `[3,4]`, prepending `[5]`
and inserting `[9]` at offset 1 yields size `6 = 2 + 2 + 1 + 1`. -/
theorem c8_size_witness :
    Editor.sizeE ⟨[⟨[5], 0, 1⟩, ⟨[9], 0, 1⟩, ⟨[1, 2], 0, 2⟩, ⟨[3, 4], 0, 2⟩]⟩ = 6 :=
  c8_size_is_sum_of_built_ranges [1, 2]
    [.pushB [3, 4], .pushF [5], .ins 1 [9]] _ rfl (by decide)
